import Mathlib

/-!
Shallow embedding of the yupooscraper backend (src/backend/database.py and
src/backend/vision.py) for checking the natural-language specification.

Conventions:
* Python floats are modelled as rationals (`ℚ`); tolerances such as `0.01`
  become `1/100` and the `1e-9` epsilon becomes `1/1000000000`.
* Python dicts keyed by strings (colour maps, tally dicts) are modelled as
  association lists with unique keys kept in insertion order, with
  get / membership / insert-or-update operations mirroring dict semantics.
* The SQLite `products` table is a `List Product`; a `SELECT ... WHERE`
  is a `List.filter` in table order, and `INSTR(tags_json, '"tag"') > 0`
  is a character-level segment search (`hasSeg`) over the JSON rendering
  of the tag list — exactly the mechanism the Python code uses.
* Python's `sorted` / `list.sort` is a stable sort; it is modelled by a
  stable insertion sort (`sortByLe`), which computes the same list.
* A Python statement that can raise (the `100.0 / current_sum` division in
  `adjust_color_percentages`) is modelled in `Except Unit`.
-/

/-! ### Python dict as an association list -/

def dGet? {α β : Type} [BEq α] (d : List (α × β)) (k : α) : Option β :=
  (d.find? (fun p => p.1 == k)).map (fun p => p.2)

def dGetD {α β : Type} [BEq α] (d : List (α × β)) (k : α) (v : β) : β :=
  (dGet? d k).getD v

def dMem {α β : Type} [BEq α] (d : List (α × β)) (k : α) : Bool :=
  d.any (fun p => p.1 == k)

/-- `d[k] = v` on a Python dict: update in place if the key exists,
otherwise append at the end (insertion order). -/
def dInsert {α β : Type} [BEq α] (d : List (α × β)) (k : α) (v : β) : List (α × β) :=
  if dMem d k then d.map (fun p => if p.1 == k then (k, v) else p) else d ++ [(k, v)]

def dValuesSum {α : Type} [BEq α] (d : List (α × ℚ)) : ℚ :=
  (d.map (fun p => p.2)).sum

/-- `list(dict.fromkeys(l))` / iterating a Python set built from a list:
first occurrences, in order. -/
def dedupFirst {α : Type} [BEq α] (l : List α) : List α :=
  l.foldl (fun acc x => if acc.contains x then acc else acc ++ [x]) []

/-! ### Stable sorting (Python `sorted`) -/

def stableInsert {α : Type} (le : α → α → Bool) : List α → α → List α
  | [], a => [a]
  | b :: l, a => if le b a then b :: stableInsert le l a else a :: b :: l

/-- Stable sort: inserts elements left to right, so elements that compare
equal keep their original relative order, as Python's `sorted` does. -/
def sortByLe {α : Type} (le : α → α → Bool) (l : List α) : List α :=
  l.foldl (stableInsert le) []

/-! ### Character-level segment search (SQLite `INSTR`) -/

def startsW : List Char → List Char → Bool
  | [], _ => true
  | _ :: _, [] => false
  | a :: p, b :: l => a == b && startsW p l

/-- `hasSeg p l` holds iff `p` occurs as a contiguous segment of `l`;
this is `INSTR(l, p) > 0`. -/
def hasSeg (p : List Char) : List Char → Bool
  | [] => startsW p []
  | b :: l => startsW p (b :: l) || hasSeg p l

def startsWithStr (pre s : String) : Bool := startsW pre.data s.data

/-! ### JSON rendering of a tag list (`json.dumps(tags)`)

`json.dumps` escapes `"` and `\` inside a string (it also escapes control
and non-ASCII characters, which never occur in this system's tags and are
excluded by the `simpleTag` hypotheses of the theorems below). -/

def jsonEscapeChar (c : Char) : List Char :=
  if c == '"' then ['\\', '"'] else if c == '\\' then ['\\', '\\'] else [c]

def jsonQuote (s : List Char) : List Char :=
  '"' :: (s.map jsonEscapeChar).flatten ++ ['"']

def dumpCore : List (List Char) → List Char
  | [] => []
  | [a] => jsonQuote a
  | a :: b :: rest => jsonQuote a ++ ',' :: ' ' :: dumpCore (b :: rest)

/-- `json.dumps(tags)` for a list of strings: `["a", "b"]`. -/
def dumpTags (tags : List String) : List Char :=
  '[' :: dumpCore (tags.map String.data) ++ [']']

/-- The SQL parameter `f'"{tag}"'`: the raw tag wrapped in double quotes. -/
def quotePat (t : String) : List Char := '"' :: t.data ++ ['"']

/-- Characters that tags in this system are built from (letters, digits,
underscore); such tags need no JSON escaping and contain none of the
delimiter characters of the JSON rendering. -/
def simpleChar (c : Char) : Bool := c.isAlphanum || c == '_'

def simpleTag (s : String) : Bool := s.data.all simpleChar

/-! ### The products table -/

/-- One row of the `products` table, with `tags_json` and `colors_json`
already decoded (as `list_all_products` and the search functions do). -/
structure Product where
  id : ℕ
  imageUrl : String
  imagePath : String
  albumTitle : String
  tags : List String
  albumUrl : String
  colors : List (String × ℚ)
deriving DecidableEq

/-- `INSTR(tags_json, '"tag"') > 0` for one row. -/
def tagMatches (itemTags : List String) (t : String) : Bool :=
  hasSeg (quotePat t) (dumpTags itemTags)

/-! ### `search_products_by_tags` (database.py) -/

def splitUnd : List Char → List (List Char)
  | [] => [[]]
  | c :: rest =>
    match splitUnd rest with
    | [] => [[]]
    | part :: parts =>
      if c == '_' then [] :: part :: parts else (c :: part) :: parts

/-- Category of a query tag: the text before the first `_`, or `misc`
for tags with no `_` (Python: `tag.split('_')`, `parts[0]` if
`len(parts) > 1` else `"misc"`). -/
def tagCategory (t : String) : String :=
  match splitUnd t.data with
  | [] => "misc"
  | [_] => "misc"
  | p :: _ :: _ => ⟨p⟩

/-- The keys of the `tag_categories` dict, in insertion order. -/
def categoriesOf (q : List String) : List String :=
  dedupFirst (q.map tagCategory)

/-- The tags filed under category `c`. -/
def groupTags (q : List String) (c : String) : List String :=
  q.filter (fun t => tagCategory t == c)

/-- The generated `WHERE` clause: OR within a category group, AND across
groups, each atom an `INSTR` segment test. -/
def matchesQuery (q : List String) (itemTags : List String) : Bool :=
  (categoriesOf q).all (fun c => (groupTags q c).any (fun t => tagMatches itemTags t))

def lowerStr (s : String) : String := ⟨s.data.map Char.toLower⟩

def colorRelevance (sortColors : List String) (colors : List (String × ℚ)) : ℚ :=
  (sortColors.map (fun c => dGetD colors (lowerStr c) 0)).sum

def typeTagsOf (tags : List String) : List String :=
  tags.filter (fun t => startsWithStr "type_" t)

def requestedTypeTags (q : List String) : List String :=
  (groupTags q "type").filter (fun t => startsWithStr "type_" t)

/-- The post-query exclusive-type filter: keep a row iff every one of its
`type_*` tags is among the requested ones and the two lists have equal
length. -/
def exclusiveTypeKeep (q : List String) (p : Product) : Bool :=
  let reqType := requestedTypeTags q
  let ptype := typeTagsOf p.tags
  ptype.all (fun t => reqType.contains t) && ptype.length == reqType.length

def searchProductsByTags (q : List String) (ps : List Product)
    (sortByColors : Option (List String)) (exclusiveType : Bool) : List Product :=
  if q.isEmpty then []
  else
    let results := ps.filter (fun p => matchesQuery q p.tags)
    let results :=
      if exclusiveType && (categoriesOf q).contains "type" then
        results.filter (fun p => exclusiveTypeKeep q p)
      else results
    match sortByColors with
    | some sc =>
        if !sc.isEmpty && !results.isEmpty then
          sortByLe (fun a b => decide (colorRelevance sc b.colors ≤ colorRelevance sc a.colors)) results
        else results
    | none => results

/-! ### `calculate_color_similarity` and `find_similar_products_by_color` -/

/-- Sum of absolute percentage differences over the union of the two key
sets, halved; `100` when either map is empty. -/
def calculateColorSimilarity (c1 c2 : List (String × ℚ)) : ℚ :=
  if c1.isEmpty || c2.isEmpty then 100
  else
    let allColors := dedupFirst (c1.map (fun p => p.1) ++ c2.map (fun p => p.1))
    ((allColors.map (fun c => |dGetD c1 c 0 - dGetD c2 c 0|)).sum) / 2

def findSimilarProductsByColor (pid : ℕ) (limit : ℕ) (sameBrand : Bool)
    (ps : List Product) : List (Product × ℚ) :=
  match ps.find? (fun p => p.id == pid) with
  | none => []
  | some ref =>
    let refTypeTags := typeTagsOf ref.tags
    let refBrandTags := ref.tags.filter (fun t => startsWithStr "company_" t)
    if refTypeTags.isEmpty then []
    else
      let typeOk := fun (p : Product) => refTypeTags.any (fun t => tagMatches p.tags t)
      let candidates :=
        if sameBrand && !refBrandTags.isEmpty then
          ps.filter (fun p => typeOk p && refBrandTags.any (fun t => tagMatches p.tags t))
        else ps.filter typeOk
      let results := candidates.map (fun p => (p, calculateColorSimilarity ref.colors p.colors))
      (sortByLe (fun a b => decide (a.2 ≤ b.2)) results).take limit

/-! ### `adjust_color_percentages` (the Renormalization Engine) -/

/-- First-pass key lookup: the colour itself, or `gray` as a variant
spelling when the target is `grey`. -/
def foundKey (colors : List (String × ℚ)) (target : String) : Option String :=
  if dMem colors target then some target
  else if target == "grey" && dMem colors "gray" then some "gray"
  else none

/-- First pass: per target colour, the average of its percentage over the
products that carry it (0 when no product does). -/
def averagePercentages (cs : List String) (ps : List Product) : List (String × ℚ) :=
  let init : List (String × ℚ) × List (String × ℕ) :=
    (cs.foldl (fun d c => dInsert d c 0) [], cs.foldl (fun d c => dInsert d c 0) [])
  let tallies := ps.foldl (fun acc p =>
      cs.foldl (fun acc target =>
          match foundKey p.colors target with
          | some k => (dInsert acc.1 target (dGetD acc.1 target 0 + dGetD p.colors k 0),
                       dInsert acc.2 target (dGetD acc.2 target 0 + 1))
          | none => acc) acc) init
  cs.foldl (fun d target =>
      let cnt := dGetD tallies.2 target 0
      dInsert d target (if 0 < cnt then dGetD tallies.1 target 0 / (cnt : ℚ) else 0)) []

/-- Second-pass per-product mutable state: the colour map under
construction, the working tag list, the modification flags and the keys
adjusted so far. -/
structure StepState where
  newColors : List (String × ℚ)
  curTags : List String
  tagsModified : Bool
  keysAdjusted : List String
  changed : Bool
deriving DecidableEq

/-- Handling of one target colour for one product: the keys present for
the target (`grey` may also hit `gray`), the close-to-average skip, the
epsilon test deciding keep-at-adjusted-value versus drop-with-tag-removal. -/
def stepTarget (avgs : List (String × ℚ)) (original : List (String × ℚ))
    (st : StepState) (target : String) : StepState :=
  let colorKeys :=
    (if dMem original target then [target] else []) ++
    (if target == "grey" && dMem original "gray" then ["gray"] else [])
  colorKeys.foldl (fun st key =>
    let old := dGetD original key 0
    let avg := dGetD avgs target 0
    if |old - avg| < 1/100 then
      { st with newColors := dInsert st.newColors key old }
    else
      let st1 := { st with changed := true }
      let adjusted := old - avg
      if adjusted > 1/1000000000 then
        { st1 with newColors := dInsert st1.newColors key adjusted,
                   keysAdjusted := st1.keysAdjusted ++ [key] }
      else
        let tagR := "color_" ++ key
        let st2 :=
          if st1.curTags.contains tagR then
            { st1 with curTags := st1.curTags.erase tagR, tagsModified := true }
          else st1
        { st2 with keysAdjusted := st2.keysAdjusted ++ [key] }) st

/-- Final safety renormalization: leave the map alone when its sum is
within 0.01 of 100, otherwise rescale every entry by `100 / current_sum` —
which in Python raises `ZeroDivisionError` when `current_sum` is `0`,
modelled as `Except.error`. -/
def finalizeColors (nc : List (String × ℚ)) : Except Unit (List (String × ℚ)) :=
  let curSum := dValuesSum nc
  if |curSum - 100| > 1/100 then
    if curSum = 0 then .error ()
    else .ok (nc.map (fun kv => (kv.1, kv.2 * (100 / curSum))))
  else .ok nc

/-- The whole second-pass body for one product. `none` means the product
was skipped (no significant change); otherwise the new colour map, the
new tag list and whether the tags were modified. -/
def adjustProductStep (avgs : List (String × ℚ)) (cs : List String) (p : Product) :
    Except Unit (Option (List (String × ℚ) × List String × Bool)) :=
  let st := cs.foldl (stepTarget avgs p.colors) ⟨[], p.tags, false, [], false⟩
  if !st.changed then .ok none
  else
    let totalOther := ((p.colors.filter (fun kv => !st.keysAdjusted.contains kv.1)).map (fun kv => kv.2)).sum
    let specialSum := dValuesSum st.newColors
    let targetOther := if 100 - specialSum < 0 then 0 else 100 - specialSum
    let nc :=
      if 0 < totalOther then
        p.colors.foldl (fun d kv =>
          if st.keysAdjusted.contains kv.1 then d
          else dInsert d kv.1 (kv.2 * (targetOther / totalOther))) st.newColors
      else
        p.colors.foldl (fun d kv =>
          if st.keysAdjusted.contains kv.1 then d
          else dInsert d kv.1 0) st.newColors
    match finalizeColors nc with
    | .error e => .error e
    | .ok m => .ok (some (m, st.curTags, st.tagsModified))

/-- Result of a run: the table after the updates and the number of
products written. -/
structure AdjustOutcome where
  products : List Product
  updated : ℕ
deriving DecidableEq

/-- `adjust_color_percentages`: first pass computes the averages; if they
are all zero the run stops; otherwise every product is processed in table
order, stopping with an error if the per-product step raises. -/
def adjustColorPercentages (cs : List String) (ps : List Product) :
    Except Unit AdjustOutcome :=
  let avgs := averagePercentages cs ps
  if (avgs.map (fun p => p.2)).all (fun v => decide (v = 0)) then .ok ⟨ps, 0⟩
  else
    match ps.foldlM (fun (acc : List Product × ℕ) p =>
        (match adjustProductStep avgs cs p with
        | .error e => .error e
        | .ok none => .ok (acc.1 ++ [p], acc.2)
        | .ok (some (nc, nt, _)) =>
            .ok (acc.1 ++ [{ p with colors := nc, tags := nt }], acc.2 + 1) :
          Except Unit (List Product × ℕ)))
      (([], 0) : List Product × ℕ) with
    | .error e => .error e
    | .ok a => .ok ⟨a.1, a.2⟩

/-! ### `_bgr_to_color_name` (vision.py, the Color Classifier) -/

/-- The ordered range checks of `_bgr_to_color_name`, transcribed from
`color_checks` (BGR channels as integers; `navy` appears twice, as in the
source). -/
def colorChecks : List (String × (ℤ → ℤ → ℤ → Bool)) := [
  ("white", fun b g r => decide (r > 235 ∧ g > 235 ∧ b > 235)),
  ("lightgrey", fun b g r => decide (r > 200 ∧ g > 200 ∧ b > 200 ∧ r < 235 ∧ |r - g| < 30 ∧ |g - b| < 30)),
  ("grey", fun b g r => decide (r > 110 ∧ g > 110 ∧ b > 110 ∧ r < 200 ∧ |r - g| < 50 ∧ |g - b| < 50)),
  ("darkgrey", fun b g r => decide (r > 50 ∧ g > 50 ∧ b > 50 ∧ r < 110 ∧ |r - g| < 50 ∧ |g - b| < 50)),
  ("black", fun b g r => decide (r < 50 ∧ g < 50 ∧ b < 50)),
  ("maroon", fun b g r => decide (r > 80 ∧ r < 160 ∧ g < 90 ∧ b < 90)),
  ("navy", fun b g r => decide (b > 100 ∧ b < 160 ∧ g < 80 ∧ r < 80)),
  ("red", fun b g r => decide (r > 220 ∧ g < 100 ∧ b < 100)),
  ("green", fun b g r => decide (g > 200 ∧ r < 140 ∧ b < 140)),
  ("blue", fun b g r => decide (b > 200 ∧ r < 140 ∧ g < 140)),
  ("yellow", fun b g r => decide (g > 220 ∧ r > 220 ∧ b < 100)),
  ("cyan", fun b g r => decide (b > 220 ∧ g > 220 ∧ r < 100)),
  ("magenta", fun b g r => decide (b > 220 ∧ r > 220 ∧ g < 100)),
  ("darkred", fun b g r => decide (r > 120 ∧ r < 200 ∧ g < 80 ∧ b < 80)),
  ("darkgreen", fun b g r => decide (g > 100 ∧ g < 180 ∧ r < 100 ∧ b < 100)),
  ("darkblue", fun b g r => decide (b > 120 ∧ b < 200 ∧ r < 100 ∧ g < 100)),
  ("orange", fun b g r => decide (r > 200 ∧ g > 140 ∧ b < 100 ∧ r > g)),
  ("darkorange", fun b g r => decide (r > 160 ∧ r < 200 ∧ g > 100 ∧ g < 160 ∧ b < 100)),
  ("orangered", fun b g r => decide (r > 180 ∧ g > 80 ∧ g < 140 ∧ b < 100)),
  ("gold", fun b g r => decide (g > 180 ∧ r > 180 ∧ b < 100 ∧ |r - g| < 80)),
  ("khaki", fun b g r => decide (r > 190 ∧ g > 200 ∧ b > 140 ∧ b < 180)),
  ("tan", fun b g r => decide (r > 150 ∧ g > 130 ∧ b > 100 ∧ r > g ∧ g > b)),
  ("brown", fun b g r => decide (r > 80 ∧ r < 180 ∧ g > 50 ∧ g < 130 ∧ b > 40 ∧ b < 120)),
  ("chocolate", fun b g r => decide (r > 140 ∧ r < 200 ∧ g > 70 ∧ g < 140 ∧ b > 30 ∧ b < 100)),
  ("saddlebrown", fun b g r => decide (r > 70 ∧ r < 140 ∧ g > 40 ∧ g < 100 ∧ b > 30 ∧ b < 90)),
  ("peru", fun b g r => decide (r > 160 ∧ g > 120 ∧ g < 180 ∧ b > 60 ∧ b < 130)),
  ("beige", fun b g r => decide (r > 200 ∧ g > 200 ∧ b > 180 ∧ r < 240)),
  ("ivory", fun b g r => decide (r > 240 ∧ g > 240 ∧ b > 230)),
  ("lime", fun b g r => decide (g > 200 ∧ r < 120 ∧ b < 120)),
  ("forestgreen", fun b g r => decide (g > 100 ∧ g < 170 ∧ r > 40 ∧ r < 130 ∧ b > 40 ∧ b < 130)),
  ("teal", fun b g r => decide (b > 120 ∧ g > 120 ∧ r < 100)),
  ("olive", fun b g r => decide (g > 100 ∧ r > 80 ∧ r < 150 ∧ b < 100)),
  ("navy", fun b g r => decide (b > 100 ∧ b < 160 ∧ g < 80 ∧ r < 80)),
  ("royalblue", fun b g r => decide (b > 180 ∧ g > 80 ∧ g < 150 ∧ r > 50 ∧ r < 130)),
  ("cornflowerblue", fun b g r => decide (b > 190 ∧ g > 110 ∧ g < 170 ∧ r > 80 ∧ r < 160)),
  ("skyblue", fun b g r => decide (b > 210 ∧ g > 190 ∧ r > 160 ∧ r < 220)),
  ("lightblue", fun b g r => decide (b > 210 ∧ g > 190 ∧ r > 140 ∧ r < 200)),
  ("turquoise", fun b g r => decide (b > 160 ∧ g > 160 ∧ r < 140)),
  ("darkviolet", fun b g r => decide (b > 160 ∧ r > 160 ∧ g < 100)),
  ("purple", fun b g r => decide (b > 140 ∧ r > 140 ∧ |b - r| < 70 ∧ g < 130)),
  ("indigo", fun b g r => decide (b > 130 ∧ g < 110 ∧ r > 70 ∧ r < 140)),
  ("violet", fun b g r => decide (b > 190 ∧ r > 190 ∧ g > 100 ∧ g < 190)),
  ("hotpink", fun b g r => decide (b > 160 ∧ r > 230 ∧ g > 100 ∧ g < 170)),
  ("pink", fun b g r => decide (b > 160 ∧ r > 220 ∧ g > 130 ∧ g < 210)),
  ("lightpink", fun b g r => decide (b > 220 ∧ r > 240 ∧ g > 190)),
  ("salmon", fun b g r => decide (b > 160 ∧ r > 220 ∧ g > 150 ∧ g < 200)),
  ("lightsalmon", fun b g r => decide (b > 210 ∧ r > 240 ∧ g > 190)),
  ("crimson", fun b g r => decide (r > 180 ∧ g < 110 ∧ b < 100 ∧ r - g > 60)),
  ("silver", fun b g r => decide (r > 190 ∧ g > 190 ∧ b > 190 ∧ r < 240))]

/-- The 9-entry fallback palette (BGR reference colours), in dict
insertion order. -/
def refPalette : List (String × (ℤ × ℤ × ℤ)) := [
  ("red", (0, 0, 255)),
  ("green", (0, 255, 0)),
  ("blue", (255, 0, 0)),
  ("yellow", (0, 255, 255)),
  ("cyan", (255, 255, 0)),
  ("magenta", (255, 0, 255)),
  ("white", (255, 255, 255)),
  ("black", (0, 0, 0)),
  ("grey", (128, 128, 128))]

/-- One iteration of the fallback loop: the running state is
`(best_name, min_dist)` where `min_dist = none` stands for the initial
`float("inf")`, against which any distance compares strictly smaller. -/
def fallbackStep (b g r : ℤ) (st : String × Option ℤ) (entry : String × (ℤ × ℤ × ℤ)) :
    String × Option ℤ :=
  let dist := (b - entry.2.1)^2 + (g - entry.2.2.1)^2 + (r - entry.2.2.2)^2
  match st.2 with
  | none => (entry.1, some dist)
  | some m => if dist < m then (entry.1, some dist) else st

/-- The nearest-centroid fallback, started at `("unknown", inf)`. -/
def fallbackName (b g r : ℤ) : String :=
  (refPalette.foldl (fallbackStep b g r) ("unknown", none)).1

/-- `_bgr_to_color_name`: the first matching range check, else the
nearest palette colour by squared Euclidean distance. -/
def bgrToColorName (bgr : ℤ × ℤ × ℤ) : String :=
  match colorChecks.find? (fun e => e.2 bgr.1 bgr.2.1 bgr.2.2) with
  | some e => e.1
  | none => fallbackName bgr.1 bgr.2.1 bgr.2.2

/-- Every name either of the two stages can return. -/
def colorVocabulary : List String :=
  colorChecks.map (fun e => e.1) ++ refPalette.map (fun e => e.1)

/-! ### `_get_color_percentages` (vision.py, the Palette Extractor)

The pixel-to-cluster stage (`cv2.kmeans`) is an external numeric routine;
the embedding starts from its outputs: the per-pixel label list and the
cluster centres. `Counter(labels.flatten())` tallies labels in first-seen
order; `counts.values()` is then zipped against the centre rows. -/

def counterOf (l : List ℕ) : List (ℕ × ℕ) :=
  l.foldl (fun acc x => dInsert acc x (dGetD acc x 0 + 1)) []

def getColorPercentages (labels : List ℕ) (centers : List (ℤ × ℤ × ℤ)) :
    List (String × ℚ) :=
  let counts := (counterOf labels).map (fun p => p.2)
  let totalPixels : ℚ := (labels.length : ℚ)
  let ordered := sortByLe (fun a b => decide (b.1 ≤ a.1)) (counts.zip centers)
  ordered.map (fun p => (bgrToColorName p.2, (p.1 : ℚ) / totalPixels * 100))

/-! ### `generate_tags_for_image` (vision.py) -/

/-- Python's `round(q, 2)` (round half to even, in exact arithmetic). -/
def roundHalfEven (x : ℚ) : ℤ :=
  let f := ⌊x⌋
  let rem := x - (f : ℚ)
  if rem < 1/2 then f
  else if 1/2 < rem then f + 1
  else if f % 2 = 0 then f else f + 1

def roundQ2 (q : ℚ) : ℚ := ((roundHalfEven (q * 100) : ℚ)) / 100

/-- The colour loop of `generate_tags_for_image`: walk the palette in
order; when `color_<name>` is not yet a tag, append it and record the
(rounded) percentage under `name`; otherwise skip the pair entirely. -/
def buildColorTags (pcts : List (String × ℚ)) : List String × List (String × ℚ) :=
  pcts.foldl (fun acc nd =>
      let tag := "color_" ++ nd.1
      if acc.1.contains tag then acc
      else (acc.1 ++ [tag], dInsert acc.2 nd.1 (roundQ2 nd.2))) ([], [])

/-- `f"company_{brand.lower().replace(' ', '_')}"`. -/
def brandTag (brand : String) : String :=
  "company_" ++ ⟨(lowerStr brand).data.map (fun c => if c == ' ' then '_' else c)⟩

def addBrandTags (tags : List String) (brands : List String) : List String :=
  brands.foldl (fun ts brand =>
      let tag := brandTag brand
      if ts.contains tag then ts else ts ++ [tag]) tags

/-- The success path of `generate_tags_for_image`, from the extracted
palette and the brand names found in the album title (brand extraction
reads an external translation database, so its output is a parameter). -/
def generateTagsForImage (pcts : List (String × ℚ)) (albumTitle : String)
    (brands : List String) : List String × List (String × ℚ) :=
  let built := buildColorTags pcts
  let tags := if albumTitle == "" then built.1 else addBrandTags built.1 brands
  (dedupFirst tags, built.2)

/-- Sample-row builder for concrete instances (string metadata fields
empty; they play no role in any of the functions above). -/
def mkP (i : ℕ) (tags : List String) (colors : List (String × ℚ)) : Product :=
  ⟨i, "", "", "", tags, "", colors⟩

/-! ## Theorems -/

/-! ### Generic facts about the final safety renormalization -/

theorem dValuesSum_map_scale (l : List (String × ℚ)) (f : ℚ) :
    dValuesSum (l.map (fun kv => (kv.1, kv.2 * f))) = dValuesSum l * f := by
  simp only [dValuesSum, List.map_map]
  induction l with
  | nil => simp
  | cons kv l ih => simp [ih, add_mul]

theorem finalizeColors_ok_sum (nc m : List (String × ℚ))
    (h : finalizeColors nc = .ok m) : |dValuesSum m - 100| ≤ 1/100 := by
  simp only [finalizeColors] at h
  split at h
  · rename_i hgt
    split at h
    · exact absurd h (by simp)
    · rename_i hne
      have hm : m = nc.map (fun kv => (kv.1, kv.2 * (100 / dValuesSum nc))) := by
        simpa using h.symm
      subst hm
      rw [dValuesSum_map_scale, mul_div_cancel₀ _ hne]
      norm_num
  · rename_i hle
    have hm : m = nc := by simpa using h.symm
    subst hm
    linarith [not_lt.mp hle]

/-- C1 (amended): every colour map the Renormalization Engine actually
writes back for a product (a successful, non-skipped per-product step)
sums to 100 within 0.01; the final safety renormalization restores the
sum exactly whenever the retained colours sum to a nonzero value, and
raises (division by zero) otherwise, so a written map always carries the
invariant. -/
theorem adjust_written_map_sums_to_100 (avgs : List (String × ℚ)) (cs : List String)
    (p : Product) (nc : List (String × ℚ)) (nt : List String) (tm : Bool)
    (h : adjustProductStep avgs cs p = .ok (some (nc, nt, tm))) :
    |dValuesSum nc - 100| ≤ 1/100 := by
  simp only [adjustProductStep] at h
  split at h
  · exact absurd h (by simp)
  · split at h
    · exact absurd h (by simp)
    · rename_i m hm
      have hmn : m = nc := by
        simp only [Except.ok.injEq, Option.some.injEq, Prod.mk.injEq] at h
        exact h.1
      exact hmn ▸ finalizeColors_ok_sum _ _ hm

theorem adjust_written_map_sums_to_100_witness :
    adjustProductStep [("grey", 60), ("white", 60)] ["grey", "white"]
        (mkP 1 ["type_a"] [("grey", 70), ("red", 30)]) =
      .ok (some ([("grey", 10), ("red", 90)], ["type_a"], false)) ∧
    |dValuesSum [("grey", 10), ("red", 90)] - 100| ≤ 1/100 := by
  have h : adjustProductStep [("grey", 60), ("white", 60)] ["grey", "white"]
      (mkP 1 ["type_a"] [("grey", 70), ("red", 30)]) =
      .ok (some ([("grey", 10), ("red", 90)], ["type_a"], false)) := by
    norm_num +decide [adjustProductStep, stepTarget, finalizeColors, dInsert, dMem, dGetD,
      dGet?, dValuesSum, mkP]
  exact ⟨h, adjust_written_map_sums_to_100 _ _ _ _ _ _ h⟩

/-- C1 (counterexample): on a corpus whose colour maps each sum to 100,
adjusting `["grey", "white"]` makes product 3 drop both of its colours;
its retained colours then sum to 0 and the final safety renormalization
divides by zero (Python: `ZeroDivisionError`) instead of terminating and
restoring the sum. -/
theorem adjust_zero_sum_renormalization_raises :
    adjustColorPercentages ["grey", "white"]
      [mkP 1 ["type_a"] [("grey", 70), ("red", 30)],
       mkP 2 ["type_a"] [("white", 70), ("red", 30)],
       mkP 3 ["type_a"] [("grey", 50), ("white", 50)]] = .error () := by
  norm_num +decide [adjustColorPercentages, averagePercentages, adjustProductStep, stepTarget,
    finalizeColors, foundKey, dInsert, dMem, dGetD, dGet?, dValuesSum, mkP,
    Bind.bind, Except.bind, Pure.pure, Except.pure]

/-- C2 (counterexample): on the corpus whose only item with grey has
`{grey: 30, red: 70}`, the corpus average for grey is 30, equal to the
item's own value; the engine's closeness guard (`|old − avg| < 0.01`)
therefore skips the product, so nothing is removed and nothing is
rescaled — contrary to the claimed drop of grey and rescale of red. -/
theorem adjust_skips_item_at_corpus_average :
    adjustColorPercentages ["grey"]
      [mkP 1 ["color_grey", "color_red"] [("grey", 30), ("red", 70)]] =
    .ok ⟨[mkP 1 ["color_grey", "color_red"] [("grey", 30), ("red", 70)]], 0⟩ := by
  norm_num +decide [adjustColorPercentages, averagePercentages, adjustProductStep, stepTarget,
    finalizeColors, foundKey, dInsert, dMem, dGetD, dGet?, dValuesSum, mkP,
    Bind.bind, Except.bind, Pure.pure, Except.pure]

/-- C2 (amended): the described behaviour — grey dropped from the map,
`color_grey` removed from the tag set, red rescaled to 100 — occurs when
the item's grey lies at least 0.01 below the corpus average; e.g. with a
second item `{grey: 90, red: 10}` the average is 60 and the first item is
rewritten exactly as the claim describes. -/
theorem adjust_drops_grey_below_average :
    adjustColorPercentages ["grey"]
      [mkP 1 ["color_grey", "color_red"] [("grey", 30), ("red", 70)],
       mkP 2 ["color_grey", "color_red"] [("grey", 90), ("red", 10)]] =
    .ok ⟨[mkP 1 ["color_red"] [("red", 100)],
          mkP 2 ["color_grey", "color_red"] [("grey", 30), ("red", 70)]], 2⟩ := by
  norm_num +decide [adjustColorPercentages, averagePercentages, adjustProductStep, stepTarget,
    finalizeColors, foundKey, dInsert, dMem, dGetD, dGet?, dValuesSum, mkP,
    Bind.bind, Except.bind, Pure.pure, Except.pure, List.erase_cons]

/-- C4: when two k-means clusters classify to the same colour name (here
two clusters both named `black`, with shares 60 and 40), the tag loop of
`generate_tags_for_image` records only the first cluster's share: the
returned percentage map binds `black` to 60, not to the claimed sum 100,
so the map does not account for every clustered pixel. The spec (and the
sum-to-100 invariant the rest of the system relies on) is the intent; the
loop's `if tag not in tags` guard silently discards the later shares. -/
theorem generate_tags_drops_duplicate_name_share :
    buildColorTags [("black", 60), ("black", 40)] = (["color_black"], [("black", 60)]) ∧
    dGetD (buildColorTags [("black", 60), ("black", 40)]).2 "black" 0 ≠ 100 := by
  constructor
  · norm_num +decide [buildColorTags, dInsert, dMem, roundQ2, roundHalfEven]
  · norm_num +decide [buildColorTags, dInsert, dMem, dGetD, dGet?, roundQ2, roundHalfEven]

/-- C9: similarity search returns the empty list — it neither raises nor
touches the store (the embedded function only reads `ps`) — whenever the
reference id is absent from the table or the reference row carries no
`type_*` tag. -/
theorem find_similar_absent_or_untyped_is_empty (pid limit : ℕ) (sb : Bool)
    (ps : List Product)
    (h : ps.find? (fun p => p.id == pid) = none ∨
         ∃ ref, ps.find? (fun p => p.id == pid) = some ref ∧ typeTagsOf ref.tags = []) :
    findSimilarProductsByColor pid limit sb ps = [] := by
  rcases h with h | ⟨ref, h, htags⟩
  · simp only [findSimilarProductsByColor, h]
  · simp only [findSimilarProductsByColor, h, htags]
    simp

theorem find_similar_absent_or_untyped_is_empty_witness :
    findSimilarProductsByColor 2 50 false [mkP 1 ["type_hoodie"] []] = [] :=
  find_similar_absent_or_untyped_is_empty 2 50 false [mkP 1 ["type_hoodie"] []]
    (Or.inl (by decide))

/-! ### Generic facts about `dedupFirst` and dict membership -/

theorem contains_iff {α : Type} [BEq α] [LawfulBEq α] (l : List α) (a : α) :
    l.contains a = true ↔ a ∈ l :=
  List.elem_iff

theorem dMem_iff {α β : Type} [BEq α] [LawfulBEq α] (d : List (α × β)) (k : α) :
    dMem d k = true ↔ ∃ kv ∈ d, kv.1 = k := by
  simp [dMem, List.any_eq_true, beq_iff_eq]

theorem mem_foldl_dedup {α : Type} [BEq α] [LawfulBEq α] (l : List α) (acc : List α) (a : α) :
    a ∈ l.foldl (fun acc x => if acc.contains x then acc else acc ++ [x]) acc ↔
      a ∈ acc ∨ a ∈ l := by
  induction l generalizing acc with
  | nil => simp
  | cons x l ih =>
    simp only [List.foldl_cons]
    rw [ih]
    by_cases hx : List.contains acc x = true
    · rw [if_pos hx]
      have hmem := (contains_iff acc x).mp hx
      simp only [List.mem_cons]
      constructor
      · rintro (h | h)
        · exact Or.inl h
        · exact Or.inr (Or.inr h)
      · rintro (h | rfl | h)
        · exact Or.inl h
        · exact Or.inl hmem
        · exact Or.inr h
    · rw [if_neg hx]
      simp only [List.mem_append, List.mem_singleton, List.mem_cons]
      tauto

theorem nodup_foldl_dedup {α : Type} [BEq α] [LawfulBEq α] (l : List α) (acc : List α)
    (h : acc.Nodup) :
    (l.foldl (fun acc x => if acc.contains x then acc else acc ++ [x]) acc).Nodup := by
  induction l generalizing acc with
  | nil => exact h
  | cons x l ih =>
    simp only [List.foldl_cons]
    apply ih
    by_cases hx : List.contains acc x = true
    · rwa [if_pos hx]
    · rw [if_neg hx]
      rw [List.nodup_append]
      refine ⟨h, List.nodup_singleton x, ?_⟩
      intro b hb hbx
      rw [List.mem_singleton] at hbx
      subst hbx
      exact hx ((contains_iff acc b).mpr hb)

theorem mem_dedupFirst {α : Type} [BEq α] [LawfulBEq α] (l : List α) (a : α) :
    a ∈ dedupFirst l ↔ a ∈ l := by
  rw [dedupFirst, mem_foldl_dedup]
  simp

theorem nodup_dedupFirst {α : Type} [BEq α] [LawfulBEq α] (l : List α) :
    (dedupFirst l).Nodup :=
  nodup_foldl_dedup l [] List.nodup_nil

/-! ### C10: agreement of the two outputs of `generate_tags_for_image` -/

theorem buildColorTags_inv (pcts : List (String × ℚ)) (acc : List String × List (String × ℚ))
    (h1 : acc.1.Nodup) (h2 : ∀ kv ∈ acc.2, ("color_" ++ kv.1) ∈ acc.1) :
    (pcts.foldl (fun acc nd =>
        let tag := "color_" ++ nd.1
        if acc.1.contains tag then acc
        else (acc.1 ++ [tag], dInsert acc.2 nd.1 (roundQ2 nd.2))) acc).1.Nodup ∧
    (∀ kv ∈ (pcts.foldl (fun acc nd =>
        let tag := "color_" ++ nd.1
        if acc.1.contains tag then acc
        else (acc.1 ++ [tag], dInsert acc.2 nd.1 (roundQ2 nd.2))) acc).2,
      ("color_" ++ kv.1) ∈ (pcts.foldl (fun acc nd =>
        let tag := "color_" ++ nd.1
        if acc.1.contains tag then acc
        else (acc.1 ++ [tag], dInsert acc.2 nd.1 (roundQ2 nd.2))) acc).1) ∧
    acc.1 ⊆ (pcts.foldl (fun acc nd =>
        let tag := "color_" ++ nd.1
        if acc.1.contains tag then acc
        else (acc.1 ++ [tag], dInsert acc.2 nd.1 (roundQ2 nd.2))) acc).1 := by
  induction pcts generalizing acc with
  | nil => exact ⟨h1, h2, fun a ha => ha⟩
  | cons nd pcts ih =>
    simp only [List.foldl_cons]
    by_cases hc : acc.1.contains ("color_" ++ nd.1) = true
    · simp only [hc, if_true]
      exact ih acc h1 h2
    · simp only [hc, if_false, Bool.false_eq_true]
      have hdm : dMem acc.2 nd.1 = false := by
        by_contra hdm
        rw [Bool.not_eq_false] at hdm
        obtain ⟨kv, hkv, hk⟩ := (dMem_iff acc.2 nd.1).mp hdm
        exact hc ((contains_iff _ _).mpr (hk ▸ h2 kv hkv))
      have hstep1 : (acc.1 ++ ["color_" ++ nd.1]).Nodup := by
        rw [List.nodup_append]
        refine ⟨h1, List.nodup_singleton _, ?_⟩
        intro b hb hbx
        rw [List.mem_singleton] at hbx
        subst hbx
        exact hc ((contains_iff _ _).mpr hb)
      have hstep2 : ∀ kv ∈ dInsert acc.2 nd.1 (roundQ2 nd.2),
          ("color_" ++ kv.1) ∈ acc.1 ++ ["color_" ++ nd.1] := by
        intro kv hkv
        simp only [dInsert, hdm, if_false, Bool.false_eq_true, List.mem_append,
          List.mem_singleton] at hkv
        rcases hkv with hkv | rfl
        · exact List.mem_append_left _ (h2 kv hkv)
        · exact List.mem_append_right _ (List.mem_singleton_self _)
      obtain ⟨r1, r2, r3⟩ := ih (acc.1 ++ ["color_" ++ nd.1], dInsert acc.2 nd.1 (roundQ2 nd.2))
        hstep1 hstep2
      exact ⟨r1, r2, fun a ha => r3 (List.mem_append_left _ ha)⟩

theorem addBrandTags_inv (brands : List String) (ts : List String) (h : ts.Nodup) :
    (addBrandTags ts brands).Nodup ∧ ts ⊆ addBrandTags ts brands := by
  induction brands generalizing ts with
  | nil => exact ⟨h, fun a ha => ha⟩
  | cons b brands ih =>
    simp only [addBrandTags, List.foldl_cons]
    by_cases hc : ts.contains (brandTag b) = true
    · simp only [hc, if_true]
      exact ih ts h
    · simp only [hc, if_false, Bool.false_eq_true]
      have hnd : (ts ++ [brandTag b]).Nodup := by
        rw [List.nodup_append]
        refine ⟨h, List.nodup_singleton _, ?_⟩
        intro x hx hxb
        rw [List.mem_singleton] at hxb
        subst hxb
        exact hc ((contains_iff _ _).mpr hx)
      obtain ⟨r1, r2⟩ := ih (ts ++ [brandTag b]) hnd
      exact ⟨r1, fun a ha => r2 (List.mem_append_left _ ha)⟩

/-- C10: the two outputs of `generate_tags_for_image` agree: every key of
the returned colour-percentage map appears as `color_<name>` in the
returned tag list, and the tag list has no duplicates. -/
theorem generate_tags_outputs_agree (pcts : List (String × ℚ)) (title : String)
    (brands : List String) :
    (∀ kv ∈ (generateTagsForImage pcts title brands).2,
        ("color_" ++ kv.1) ∈ (generateTagsForImage pcts title brands).1) ∧
    (generateTagsForImage pcts title brands).1.Nodup := by
  obtain ⟨hn, hm, _⟩ := buildColorTags_inv pcts ([], []) List.nodup_nil (by simp)
  have hbuild1 : (buildColorTags pcts).1.Nodup := hn
  have hbuild2 : ∀ kv ∈ (buildColorTags pcts).2,
      ("color_" ++ kv.1) ∈ (buildColorTags pcts).1 := hm
  have hfinal : (buildColorTags pcts).1 ⊆
        (if title == "" then (buildColorTags pcts).1
         else addBrandTags (buildColorTags pcts).1 brands) ∧
      (if title == "" then (buildColorTags pcts).1
       else addBrandTags (buildColorTags pcts).1 brands).Nodup := by
    split
    · exact ⟨fun a ha => ha, hbuild1⟩
    · obtain ⟨r1, r2⟩ := addBrandTags_inv brands (buildColorTags pcts).1 hbuild1
      exact ⟨r2, r1⟩
  constructor
  · intro kv hkv
    simp only [generateTagsForImage] at hkv ⊢
    exact (mem_dedupFirst _ _).mpr (hfinal.1 (hbuild2 kv hkv))
  · simp only [generateTagsForImage]
    exact nodup_dedupFirst _

/-! ### C8: totality of the Color Classifier -/

theorem fallbackStep_fst (b g r : ℤ) (st : String × Option ℤ)
    (entry : String × (ℤ × ℤ × ℤ)) :
    (fallbackStep b g r st entry).1 = st.1 ∨ (fallbackStep b g r st entry).1 = entry.1 := by
  unfold fallbackStep
  cases st.2 with
  | none => exact Or.inr rfl
  | some m =>
    dsimp only
    split
    · exact Or.inr rfl
    · exact Or.inl rfl

theorem foldl_fallbackStep_fst (b g r : ℤ) (l : List (String × (ℤ × ℤ × ℤ)))
    (st : String × Option ℤ) :
    (l.foldl (fallbackStep b g r) st).1 = st.1 ∨
      (l.foldl (fallbackStep b g r) st).1 ∈ l.map (fun e => e.1) := by
  induction l generalizing st with
  | nil => exact Or.inl rfl
  | cons e l ih =>
    simp only [List.foldl_cons, List.map_cons, List.mem_cons]
    rcases ih (fallbackStep b g r st e) with h | h
    · rcases fallbackStep_fst b g r st e with h2 | h2
      · exact Or.inl (h.trans h2)
      · exact Or.inr (Or.inl (h.trans h2))
    · exact Or.inr (Or.inr h)

theorem foldl_fallbackStep_cons (b g r : ℤ) (e : String × (ℤ × ℤ × ℤ))
    (l : List (String × (ℤ × ℤ × ℤ))) (s : String) :
    ((e :: l).foldl (fallbackStep b g r) (s, none)).1 ∈ (e :: l).map (fun x => x.1) := by
  rw [List.foldl_cons]
  have h1 : fallbackStep b g r (s, none) e =
      (e.1, some ((b - e.2.1)^2 + (g - e.2.2.1)^2 + (r - e.2.2.2)^2)) := rfl
  rw [h1]
  rcases foldl_fallbackStep_fst b g r l
      (e.1, some ((b - e.2.1)^2 + (g - e.2.2.1)^2 + (r - e.2.2.2)^2)) with h | h
  · rw [h]
    simp
  · simp only [List.map_cons, List.mem_cons]
    exact Or.inr h

theorem fallbackName_mem (b g r : ℤ) :
    fallbackName b g r ∈ refPalette.map (fun e => e.1) :=
  foldl_fallbackStep_cons b g r ("red", (0, 0, 255))
    [("green", (0, 255, 0)), ("blue", (255, 0, 0)), ("yellow", (0, 255, 255)),
     ("cyan", (255, 255, 0)), ("magenta", (255, 0, 255)), ("white", (255, 255, 255)),
     ("black", (0, 0, 0)), ("grey", (128, 128, 128))] "unknown"

/-- C8: the Color Classifier is total and deterministic — it is a pure
function on integer BGR triples (same input, same output, by
definition), each output is either the first matching range check's name
or a fallback palette name, every output belongs to the fixed vocabulary,
and the fallback's `"unknown"` initial value is never returned. -/
theorem bgr_to_color_name_total (b g r : ℤ) :
    bgrToColorName (b, g, r) ∈ colorVocabulary ∧ bgrToColorName (b, g, r) ≠ "unknown" := by
  have hvocab : ∀ x ∈ colorVocabulary, x ≠ "unknown" := by decide
  unfold bgrToColorName
  cases hfind : colorChecks.find? (fun e => e.2 b g r) with
  | none =>
    dsimp only
    have hmem : fallbackName b g r ∈ colorVocabulary := by
      unfold colorVocabulary
      exact List.mem_append_right _ (fallbackName_mem b g r)
    exact ⟨hmem, hvocab _ hmem⟩
  | some e =>
    dsimp only
    have hmem : e.1 ∈ colorVocabulary := by
      unfold colorVocabulary
      exact List.mem_append_left _ (List.mem_map_of_mem _ (List.mem_of_find?_eq_some hfind))
    exact ⟨hmem, hvocab _ hmem⟩

/-! ### Generic facts about the stable sort -/

theorem stableInsert_perm {α : Type} (le : α → α → Bool) (l : List α) (a : α) :
    (stableInsert le l a).Perm (a :: l) := by
  induction l with
  | nil => exact List.Perm.refl _
  | cons b l ih =>
    rw [stableInsert]
    split
    · exact ((ih.cons b).trans (List.Perm.swap a b l))
    · exact List.Perm.refl _

theorem foldl_stableInsert_perm {α : Type} (le : α → α → Bool) (l acc : List α) :
    (l.foldl (stableInsert le) acc).Perm (acc ++ l) := by
  induction l generalizing acc with
  | nil => simp
  | cons a l ih =>
    rw [List.foldl_cons]
    refine (ih (stableInsert le acc a)).trans ?_
    have h1 : (stableInsert le acc a ++ l).Perm ((a :: acc) ++ l) :=
      (stableInsert_perm le acc a).append_right l
    refine h1.trans ?_
    simpa using (@List.perm_middle _ a acc l).symm

theorem sortByLe_perm {α : Type} (le : α → α → Bool) (l : List α) :
    (sortByLe le l).Perm l := by
  simpa using foldl_stableInsert_perm le l []

theorem stableInsert_pairwise {α : Type} (le : α → α → Bool)
    (htot : ∀ a b, le a b = true ∨ le b a = true)
    (htrans : ∀ a b c, le a b = true → le b c = true → le a c = true)
    (l : List α) (a : α) (h : l.Pairwise (fun x y => le x y = true)) :
    (stableInsert le l a).Pairwise (fun x y => le x y = true) := by
  induction l with
  | nil => simp [stableInsert]
  | cons b l ih =>
    rw [List.pairwise_cons] at h
    obtain ⟨hb, hl⟩ := h
    rw [stableInsert]
    split
    · rename_i hba
      rw [List.pairwise_cons]
      refine ⟨?_, ih hl⟩
      intro x hx
      have := (stableInsert_perm le l a).mem_iff.mp hx
      rcases List.mem_cons.mp this with rfl | hxl
      · exact hba
      · exact hb x hxl
    · rename_i hba
      have hab : le a b = true := by
        rcases htot a b with h | h
        · exact h
        · exact absurd h hba
      rw [List.pairwise_cons]
      refine ⟨?_, List.pairwise_cons.mpr ⟨hb, hl⟩⟩
      intro x hx
      rcases List.mem_cons.mp hx with rfl | hxl
      · exact hab
      · exact htrans a b x hab (hb x hxl)

theorem sortByLe_pairwise {α : Type} (le : α → α → Bool)
    (htot : ∀ a b, le a b = true ∨ le b a = true)
    (htrans : ∀ a b c, le a b = true → le b c = true → le a c = true)
    (l : List α) :
    (sortByLe le l).Pairwise (fun x y => le x y = true) := by
  have key : ∀ (l acc : List α), acc.Pairwise (fun x y => le x y = true) →
      (l.foldl (stableInsert le) acc).Pairwise (fun x y => le x y = true) := by
    intro l
    induction l with
    | nil => exact fun acc h => h
    | cons a l ih =>
      intro acc h
      rw [List.foldl_cons]
      exact ih _ (stableInsert_pairwise le htot htrans acc a h)
  exact key l [] List.Pairwise.nil

/-! ### Generic facts about dict insertion and the label tally -/

theorem dInsert_keys {α β : Type} [BEq α] [LawfulBEq α] (d : List (α × β)) (k : α) (v : β) :
    (dInsert d k v).map (fun p => p.1) =
      if dMem d k then d.map (fun p => p.1) else d.map (fun p => p.1) ++ [k] := by
  unfold dInsert
  split
  · rename_i h
    rw [List.map_map]
    apply List.map_congr_left
    intro p _
    by_cases hp : (p.1 == k) = true
    · simp only [Function.comp_apply, hp, if_true]
      exact (eq_of_beq hp).symm
    · simp [Function.comp_apply, hp]
  · simp

theorem not_mem_keys_of_dMem_false {α β : Type} [BEq α] [LawfulBEq α]
    (d : List (α × β)) (k : α) (h : dMem d k = false) : k ∉ d.map (fun p => p.1) := by
  intro hk
  obtain ⟨p, hp, hpk⟩ := List.mem_map.mp hk
  have : dMem d k = true := (dMem_iff d k).mpr ⟨p, hp, hpk⟩
  rw [h] at this
  exact Bool.false_ne_true this

theorem dGetD_of_dMem_false {α β : Type} [BEq α] [LawfulBEq α]
    (d : List (α × β)) (k : α) (v : β) (h : dMem d k = false) : dGetD d k v = v := by
  have hfind : d.find? (fun p => p.1 == k) = none := by
    rw [List.find?_eq_none]
    intro p hp
    simp only [Bool.not_eq_true]
    by_contra hb
    rw [Bool.not_eq_false] at hb
    have : dMem d k = true := (dMem_iff d k).mpr ⟨p, hp, eq_of_beq hb⟩
    rw [h] at this
    exact Bool.false_ne_true this
  simp [dGetD, dGet?, hfind]

theorem dInsert_keys_nodup {α β : Type} [BEq α] [LawfulBEq α] (d : List (α × β)) (k : α) (v : β)
    (h : (d.map (fun p => p.1)).Nodup) : ((dInsert d k v).map (fun p => p.1)).Nodup := by
  rw [dInsert_keys]
  split
  · exact h
  · rename_i hm
    rw [List.nodup_append]
    refine ⟨h, List.nodup_singleton _, ?_⟩
    intro x hx hxk
    rw [List.mem_singleton] at hxk
    subst hxk
    exact not_mem_keys_of_dMem_false d x (Bool.not_eq_true _ ▸ hm) hx

theorem dGetD_cons_pos {α β : Type} [BEq α] (p : α × β) (d : List (α × β)) (k : α) (v : β)
    (h : (p.1 == k) = true) : dGetD (p :: d) k v = p.2 := by
  simp [dGetD, dGet?, List.find?_cons_of_pos, h]

theorem dGetD_cons_neg {α β : Type} [BEq α] (p : α × β) (d : List (α × β)) (k : α) (v : β)
    (h : (p.1 == k) = false) : dGetD (p :: d) k v = dGetD d k v := by
  simp [dGetD, dGet?, List.find?_cons_of_neg, h]

theorem map_update_eq_self {α β : Type} [BEq α] (d : List (α × β)) (x : α) (e : α × β)
    (h : ∀ q ∈ d, (q.1 == x) = false) :
    d.map (fun p => if p.1 == x then e else p) = d := by
  conv_rhs => rw [← List.map_id d]
  apply List.map_congr_left
  intro p hp
  simp [h p hp]

theorem sum_map_incr (d : List (ℕ × ℕ)) (x : ℕ)
    (hnd : (d.map (fun p => p.1)).Nodup) (hmem : dMem d x = true) :
    ((d.map (fun p => if p.1 == x then (x, dGetD d x 0 + 1) else p)).map (fun p => p.2)).sum =
      ((d.map (fun p => p.2)).sum) + 1 := by
  induction d with
  | nil => simp [dMem] at hmem
  | cons p d ih =>
    rw [List.map_cons, List.nodup_cons] at hnd
    by_cases hpx : (p.1 == x) = true
    · have hx : p.1 = x := eq_of_beq hpx
      have hrest : ∀ q ∈ d, (q.1 == x) = false := by
        intro q hq
        rw [beq_eq_false_iff_ne]
        intro hqx
        apply hnd.1
        rw [hx, ← hqx]
        exact List.mem_map_of_mem (fun p => p.1) hq
      rw [dGetD_cons_pos p d x 0 hpx]
      simp only [List.map_cons, hpx, if_true, map_update_eq_self d x _ hrest, List.sum_cons]
      omega
    · have hpx' : (p.1 == x) = false := Bool.not_eq_true _ ▸ hpx
      have hmem' : dMem d x = true := by
        simp only [dMem, List.any_cons, hpx', Bool.false_or] at hmem
        exact hmem
      rw [dGetD_cons_neg p d x 0 hpx']
      simp only [List.map_cons, hpx', if_false, Bool.false_eq_true, List.sum_cons]
      rw [ih hnd.2 hmem']
      omega

theorem counter_step_sum (acc : List (ℕ × ℕ)) (x : ℕ)
    (hnd : (acc.map (fun p => p.1)).Nodup) :
    ((dInsert acc x (dGetD acc x 0 + 1)).map (fun p => p.2)).sum =
      ((acc.map (fun p => p.2)).sum) + 1 := by
  unfold dInsert
  split
  · rename_i h
    exact sum_map_incr acc x hnd h
  · rename_i h
    rw [dGetD_of_dMem_false acc x 0 (Bool.not_eq_true _ ▸ h)]
    simp

theorem counterOf_keys_nodup_aux (l : List ℕ) (acc : List (ℕ × ℕ))
    (h : (acc.map (fun p => p.1)).Nodup) :
    ((l.foldl (fun acc x => dInsert acc x (dGetD acc x 0 + 1)) acc).map
      (fun p => p.1)).Nodup := by
  induction l generalizing acc with
  | nil => exact h
  | cons y l ih =>
    rw [List.foldl_cons]
    exact ih _ (dInsert_keys_nodup acc y _ h)

theorem counterOf_sum_aux (l : List ℕ) (acc : List (ℕ × ℕ))
    (h : (acc.map (fun p => p.1)).Nodup) :
    ((l.foldl (fun acc x => dInsert acc x (dGetD acc x 0 + 1)) acc).map
      (fun p => p.2)).sum = ((acc.map (fun p => p.2)).sum) + l.length := by
  induction l generalizing acc with
  | nil => simp
  | cons y l ih =>
    rw [List.foldl_cons, ih _ (dInsert_keys_nodup acc y _ h), counter_step_sum acc y h,
      List.length_cons]
    omega

theorem counterOf_sum (l : List ℕ) :
    ((counterOf l).map (fun p => p.2)).sum = l.length := by
  simpa using counterOf_sum_aux l [] List.nodup_nil

theorem counterOf_keys_sub_aux (l : List ℕ) (acc : List (ℕ × ℕ)) (x : ℕ)
    (hx : x ∈ (l.foldl (fun acc x => dInsert acc x (dGetD acc x 0 + 1)) acc).map
      (fun p => p.1)) :
    x ∈ acc.map (fun p => p.1) ∨ x ∈ l := by
  induction l generalizing acc with
  | nil => exact Or.inl hx
  | cons y l ih =>
    rw [List.foldl_cons] at hx
    rcases ih _ hx with h | h
    · rw [dInsert_keys] at h
      by_cases hm : dMem acc y = true
      · rw [if_pos hm] at h
        exact Or.inl h
      · rw [if_neg hm, List.mem_append, List.mem_singleton] at h
        rcases h with h | rfl
        · exact Or.inl h
        · exact Or.inr (List.mem_cons_self _ _)
    · exact Or.inr (List.mem_cons_of_mem _ h)

theorem counterOf_length_le (l : List ℕ) (n : ℕ) (hb : ∀ x ∈ l, x < n) :
    (counterOf l).length ≤ n := by
  have hlen : (counterOf l).length = ((counterOf l).map (fun p => p.1)).length := by
    rw [List.length_map]
  rw [hlen]
  have hnd : ((counterOf l).map (fun p => p.1)).Nodup :=
    counterOf_keys_nodup_aux l [] List.nodup_nil
  have hsub : ((counterOf l).map (fun p => p.1)) ⊆ List.range n := by
    intro x hx
    rcases counterOf_keys_sub_aux l [] x hx with h | h
    · simp at h
    · exact List.mem_range.mpr (hb x h)
  calc ((counterOf l).map (fun p => p.1)).length
      ≤ (List.range n).length := (List.subperm_of_subset hnd hsub).length_le
    _ = n := List.length_range n

/-- C7: the Palette Extractor's output — one (name, percentage) pair per
tallied cluster — has percentages summing to exactly 100 (hence within
the claimed 0.01 of 100), and is ordered by descending percentage. The
hypotheses state what `cv2.kmeans` guarantees about its outputs: at
least one pixel, and every label indexes a centre row. -/
theorem color_percentages_sum_100_and_sorted (labels : List ℕ) (centers : List (ℤ × ℤ × ℤ))
    (hne : labels ≠ []) (hb : ∀ x ∈ labels, x < centers.length) :
    |(((getColorPercentages labels centers).map (fun p => p.2)).sum) - 100| ≤ 1/100 ∧
    (getColorPercentages labels centers).Pairwise (fun a b => b.2 ≤ a.2) := by
  have hT0 : (0 : ℚ) < (labels.length : ℚ) := by
    have : labels.length ≠ 0 := fun h => hne (List.length_eq_zero.mp h)
    exact_mod_cast Nat.pos_of_ne_zero this
  have hTne : (labels.length : ℚ) ≠ 0 := ne_of_gt hT0
  have hlen : ((counterOf labels).map (fun p => p.2)).length ≤ centers.length := by
    rw [List.length_map]
    exact counterOf_length_le labels centers.length hb
  have hperm : (sortByLe (fun a b => decide (b.1 ≤ a.1))
      (((counterOf labels).map (fun p => p.2)).zip centers)).Perm
      (((counterOf labels).map (fun p => p.2)).zip centers) :=
    sortByLe_perm _ _
  constructor
  · have key : ((((counterOf labels).map (fun p => p.2)).zip centers).map
        (fun p : ℕ × (ℤ × ℤ × ℤ) => ((p.1 : ℚ) / (labels.length : ℚ) * 100))).sum = 100 := by
      rw [show (fun p : ℕ × (ℤ × ℤ × ℤ) => ((p.1 : ℚ) / (labels.length : ℚ) * 100)) =
          ((fun c : ℕ => ((c : ℚ) / (labels.length : ℚ) * 100)) ∘ Prod.fst) from rfl,
        ← List.map_map, List.map_fst_zip _ _ hlen]
      have hpt : ∀ (c : ℕ), c ∈ ((counterOf labels).map (fun p => p.2)) →
          ((c : ℚ) / (labels.length : ℚ) * 100) = (c : ℚ) * (100 / (labels.length : ℚ)) := by
        intro c _
        rw [div_mul_eq_mul_div, mul_div_assoc]
      rw [List.map_congr_left hpt, List.sum_map_mul_right, ← Nat.cast_list_sum, counterOf_sum,
        mul_div_cancel₀ _ hTne]
    have hform : (((getColorPercentages labels centers).map (fun p => p.2)).sum) =
        ((sortByLe (fun a b => decide (b.1 ≤ a.1))
            (((counterOf labels).map (fun p => p.2)).zip centers)).map
          (fun p : ℕ × (ℤ × ℤ × ℤ) => ((p.1 : ℚ) / (labels.length : ℚ) * 100))).sum := by
      simp only [getColorPercentages, List.map_map]
      rfl
    rw [hform, (hperm.map _).sum_eq, key]
    norm_num
  · simp only [getColorPercentages]
    have hsorted := sortByLe_pairwise (fun a b : ℕ × (ℤ × ℤ × ℤ) => decide (b.1 ≤ a.1))
      (fun a b => by
        rcases le_total b.1 a.1 with h | h
        · exact Or.inl (decide_eq_true h)
        · exact Or.inr (decide_eq_true h))
      (fun a b c h1 h2 => decide_eq_true (le_trans (of_decide_eq_true h2) (of_decide_eq_true h1)))
      ((((counterOf labels).map (fun p => p.2)).zip centers))
    refine List.Pairwise.map _ ?_ hsorted
    intro a b hab
    have hba : b.1 ≤ a.1 := of_decide_eq_true hab
    have hq : (b.1 : ℚ) ≤ (a.1 : ℚ) := by exact_mod_cast hba
    have hdiv : (b.1 : ℚ) / (labels.length : ℚ) ≤ (a.1 : ℚ) / (labels.length : ℚ) :=
      (div_le_div_iff_of_pos_right hT0).mpr hq
    exact mul_le_mul_of_nonneg_right hdiv (by norm_num)

theorem color_percentages_sum_100_and_sorted_witness :
    ([0, 0, 1] : List ℕ) ≠ [] ∧
    (∀ x ∈ ([0, 0, 1] : List ℕ), x < ([((0:ℤ), (0:ℤ), (0:ℤ)), ((250:ℤ), (250:ℤ), (250:ℤ))]).length) ∧
    (|(((getColorPercentages [0, 0, 1]
          [((0:ℤ), (0:ℤ), (0:ℤ)), ((250:ℤ), (250:ℤ), (250:ℤ))]).map (fun p => p.2)).sum) - 100| ≤ 1/100 ∧
     (getColorPercentages [0, 0, 1]
        [((0:ℤ), (0:ℤ), (0:ℤ)), ((250:ℤ), (250:ℤ), (250:ℤ))]).Pairwise (fun a b => b.2 ≤ a.2)) :=
  ⟨by decide, by decide,
   color_percentages_sum_100_and_sorted [0, 0, 1]
     [((0:ℤ), (0:ℤ), (0:ℤ)), ((250:ℤ), (250:ℤ), (250:ℤ))] (by decide) (by decide)⟩

/-! ### Segment search versus exact tag membership (C3)

The SQL query matches `'"tag"'` as a raw substring of the JSON text of
the tag list. The lemmas below show that, for tags made of letters,
digits and underscores (every tag this system generates), this substring
test holds exactly when the tag is a member of the tag list — in
particular `dark_red` does not match a query for `red`. -/

theorem startsW_append_self (p u : List Char) : startsW p (p ++ u) = true := by
  induction p with
  | nil => rfl
  | cons a p ih => simp [startsW, ih]

theorem hasSeg_of_startsW (p l : List Char) (h : startsW p l = true) : hasSeg p l = true := by
  cases l with
  | nil => exact h
  | cons b l => simp [hasSeg, h]

theorem hasSeg_append_right (p l₁ l₂ : List Char) (h : hasSeg p l₂ = true) :
    hasSeg p (l₁ ++ l₂) = true := by
  induction l₁ with
  | nil => exact h
  | cons a l₁ ih => simp [hasSeg, ih]

theorem startsW_append_of (p l u : List Char) (h : startsW p l = true) :
    startsW p (l ++ u) = true := by
  induction p generalizing l with
  | nil => rfl
  | cons d p ih =>
    cases l with
    | nil => exact absurd h (by simp [startsW])
    | cons e l =>
      simp only [startsW, Bool.and_eq_true] at h
      simp only [List.cons_append, startsW, Bool.and_eq_true]
      exact ⟨h.1, ih l h.2⟩

theorem hasSeg_append_left (p l₁ l₂ : List Char) (h : hasSeg p l₁ = true) :
    hasSeg p (l₁ ++ l₂) = true := by
  induction l₁ with
  | nil =>
    have hp : p = [] := by
      cases p with
      | nil => rfl
      | cons a p => exact absurd h (by simp [hasSeg, startsW])
    subst hp
    cases l₂ with
    | nil => rfl
    | cons b l₂ => simp [hasSeg, startsW]
  | cons b l₁ ih =>
    simp only [hasSeg, Bool.or_eq_true] at h
    rcases h with h | h
    · exact hasSeg_of_startsW _ _ (by simpa using startsW_append_of p (b :: l₁) l₂ h)
    · simp only [List.cons_append, hasSeg, Bool.or_eq_true]
      exact Or.inr (ih h)

theorem startsW_stop (p : List Char) (c : Char) (hc : c ∉ p) :
    ∀ x y : List Char, startsW p (x ++ c :: y) = true → startsW p x = true := by
  induction p with
  | nil => intro x y _; rfl
  | cons d p ih =>
    intro x y h
    cases x with
    | nil =>
      simp only [List.nil_append, startsW, Bool.and_eq_true] at h
      exact absurd (eq_of_beq h.1) (fun hdc => hc (hdc ▸ List.mem_cons_self d p))
    | cons e x =>
      simp only [List.cons_append, startsW, Bool.and_eq_true] at h
      simp only [startsW, Bool.and_eq_true]
      exact ⟨h.1, ih (fun hcp => hc (List.mem_cons_of_mem d hcp)) x y h.2⟩

theorem hasSeg_split (p : List Char) (c : Char) (hc : c ∉ p) :
    ∀ l₁ l₂ : List Char, hasSeg p (l₁ ++ c :: l₂) = true →
      hasSeg p l₁ = true ∨ hasSeg p l₂ = true := by
  intro l₁
  induction l₁ with
  | nil =>
    intro l₂ h
    simp only [List.nil_append, hasSeg, Bool.or_eq_true] at h
    rcases h with h | h
    · cases p with
      | nil => exact Or.inl rfl
      | cons d p =>
        simp only [startsW, Bool.and_eq_true] at h
        exact absurd (eq_of_beq h.1) (fun hdc => hc (hdc ▸ List.mem_cons_self d p))
    · exact Or.inr h
  | cons a l₁ ih =>
    intro l₂ h
    simp only [List.cons_append, hasSeg, Bool.or_eq_true] at h
    rcases h with h | h
    · have := startsW_stop p c hc (a :: l₁) l₂ (by simpa using h)
      exact Or.inl (hasSeg_of_startsW _ _ this)
    · rcases ih l₂ h with h2 | h2
      · exact Or.inl (by simp [hasSeg, h2])
      · exact Or.inr h2

theorem startsW_exists (p l : List Char) (h : startsW p l = true) : ∃ u, l = p ++ u := by
  induction p generalizing l with
  | nil => exact ⟨l, rfl⟩
  | cons d p ih =>
    cases l with
    | nil => exact absurd h (by simp [startsW])
    | cons e l =>
      simp only [startsW, Bool.and_eq_true] at h
      obtain ⟨u, hu⟩ := ih l h.2
      exact ⟨u, by simp [eq_of_beq h.1, hu]⟩

theorem exists_of_hasSeg (p l : List Char) (h : hasSeg p l = true) :
    ∃ s u, l = s ++ p ++ u := by
  induction l with
  | nil =>
    have hp : p = [] := by
      cases p with
      | nil => rfl
      | cons a p => exact absurd h (by simp [hasSeg, startsW])
    exact ⟨[], [], by simp [hp]⟩
  | cons b l ih =>
    simp only [hasSeg, Bool.or_eq_true] at h
    rcases h with h | h
    · obtain ⟨u, hu⟩ := startsW_exists p (b :: l) h
      exact ⟨[], u, by simp [hu]⟩
    · obtain ⟨s, u, hsu⟩ := ih h
      exact ⟨b :: s, u, by simp [hsu]⟩

theorem append_sep_inj (x : Char) (t u a v : List Char) (hx : x ∉ t) (hx' : x ∉ a)
    (h : t ++ x :: u = a ++ x :: v) : t = a := by
  induction t generalizing a with
  | nil =>
    cases a with
    | nil => rfl
    | cons b a =>
      simp only [List.nil_append, List.cons_append, List.cons.injEq] at h
      exact absurd (h.1 ▸ List.mem_cons_self b a) hx'
  | cons c t ih =>
    cases a with
    | nil =>
      simp only [List.cons_append, List.nil_append, List.cons.injEq] at h
      exact absurd (h.1 ▸ List.mem_cons_self c t) hx
    | cons b a =>
      simp only [List.cons_append, List.cons.injEq] at h
      rw [h.1, ih a (fun hm => hx (List.mem_cons_of_mem c hm))
        (fun hm => hx' (List.mem_cons_of_mem b hm)) h.2]

theorem quoted_eq_of_hasSeg (t a : List Char) (ht : '"' ∉ t) (ha : '"' ∉ a)
    (h : hasSeg ('"' :: t ++ ['"']) ('"' :: a ++ ['"']) = true) : t = a := by
  obtain ⟨s, u, hsu⟩ := exists_of_hasSeg _ _ h
  have hcount : ('"' :: a ++ ['"']).count '"' = 2 := by
    simp [List.count_append, List.count_cons, List.count_eq_zero.mpr ha]
  have hcount2 : (s ++ ('"' :: t ++ ['"']) ++ u).count '"' = s.count '"' + 2 + u.count '"' := by
    simp [List.count_append, List.count_cons, List.count_eq_zero.mpr ht]
    omega
  rw [hsu, hcount2] at hcount
  have hs0 : s.count '"' = 0 := by omega
  have hu0 : u.count '"' = 0 := by omega
  have hsq : '"' ∉ s := List.count_eq_zero.mp hs0
  cases s with
  | cons ch s' =>
    simp only [List.cons_append, List.cons.injEq] at hsu
    exact absurd (hsu.1 ▸ List.mem_cons_self ch s') hsq
  | nil =>
    simp only [List.nil_append, List.cons_append, List.cons.injEq] at hsu
    have heq : t ++ '"' :: u = a ++ '"' :: [] := by
      have h2 := hsu.2
      simp only [List.append_assoc] at h2 ⊢
      exact h2.symm ▸ rfl
    exact append_sep_inj '"' t u a [] ht ha heq

theorem simpleChar_spec (c : Char) (h : simpleChar c = true) :
    c ≠ '"' ∧ c ≠ ',' ∧ c ≠ ' ' ∧ c ≠ '[' ∧ c ≠ ']' ∧ c ≠ '\\' := by
  refine ⟨?_, ?_, ?_, ?_, ?_, ?_⟩ <;> rintro rfl <;> exact absurd h (by decide)

theorem escape_simple (s : List Char) (h : ∀ c ∈ s, simpleChar c = true) :
    (s.map jsonEscapeChar).flatten = s := by
  induction s with
  | nil => rfl
  | cons c s ih =>
    have hc := simpleChar_spec c (h c (List.mem_cons_self c s))
    have hesc : jsonEscapeChar c = [c] := by
      unfold jsonEscapeChar
      rw [if_neg (by simpa using hc.1), if_neg (by simpa using hc.2.2.2.2.2)]
    simp only [List.map_cons, List.flatten_cons, hesc, List.singleton_append]
    rw [ih (fun d hd => h d (List.mem_cons_of_mem c hd))]

theorem jsonQuote_simple (s : List Char) (h : ∀ c ∈ s, simpleChar c = true) :
    jsonQuote s = '"' :: s ++ ['"'] := by
  unfold jsonQuote
  rw [escape_simple s h]

theorem hasSeg_dumpCore_of_mem (t : List Char) (tags : List (List Char))
    (ht : ∀ c ∈ t, simpleChar c = true) (hmem : t ∈ tags) :
    hasSeg ('"' :: t ++ ['"']) (dumpCore tags) = true := by
  induction tags with
  | nil => exact absurd hmem (List.not_mem_nil t)
  | cons a rest ih =>
    rcases List.mem_cons.mp hmem with rfl | hmem'
    · cases rest with
      | nil =>
        rw [dumpCore, jsonQuote_simple t ht]
        exact hasSeg_of_startsW _ _ (by simpa using startsW_append_self ('"' :: t ++ ['"']) [])
      | cons b rest' =>
        rw [dumpCore, jsonQuote_simple t ht]
        exact hasSeg_of_startsW _ _
          (by simpa using startsW_append_self ('"' :: t ++ ['"']) (',' :: ' ' :: dumpCore (b :: rest')))
    · cases rest with
      | nil => exact absurd hmem' (List.not_mem_nil t)
      | cons b rest' =>
        rw [dumpCore]
        have hshape : jsonQuote a ++ ',' :: ' ' :: dumpCore (b :: rest') =
            (jsonQuote a ++ [',', ' ']) ++ dumpCore (b :: rest') := by
          simp
        rw [hshape]
        exact hasSeg_append_right _ _ _ (ih hmem')

theorem mem_of_hasSeg_dumpCore (t : List Char) (tags : List (List Char))
    (ht : ∀ c ∈ t, simpleChar c = true)
    (htags : ∀ a ∈ tags, ∀ c ∈ a, simpleChar c = true)
    (h : hasSeg ('"' :: t ++ ['"']) (dumpCore tags) = true) : t ∈ tags := by
  have hqt : '"' ∉ t := fun hc => (simpleChar_spec _ (ht _ hc)).1 rfl
  have hcomma : ',' ∉ ('"' :: t ++ ['"']) := by
    intro hc
    rcases List.mem_cons.mp hc with hc | hc
    · exact absurd hc (by decide)
    · rcases List.mem_append.mp hc with hc | hc
      · exact (simpleChar_spec ',' (ht ',' hc)).2.1 rfl
      · rw [List.mem_singleton] at hc
        exact absurd hc (by decide)
  induction tags with
  | nil => exact absurd h (by simp [dumpCore, hasSeg, startsW])
  | cons a rest ih =>
    have ha : ∀ c ∈ a, simpleChar c = true := htags a (List.mem_cons_self a rest)
    have hqa : '"' ∉ a := fun hc => (simpleChar_spec _ (ha _ hc)).1 rfl
    cases rest with
    | nil =>
      rw [dumpCore, jsonQuote_simple a ha] at h
      exact (quoted_eq_of_hasSeg t a hqt hqa h) ▸ List.mem_cons_self _ _
    | cons b rest' =>
      rw [dumpCore, jsonQuote_simple a ha] at h
      have hshape : ('"' :: a ++ ['"']) ++ ',' :: ' ' :: dumpCore (b :: rest') =
          ('"' :: a ++ ['"']) ++ ',' :: (' ' :: dumpCore (b :: rest')) := rfl
      rw [hshape] at h
      rcases hasSeg_split _ ',' hcomma _ _ h with h2 | h2
      · exact (quoted_eq_of_hasSeg t a hqt hqa h2) ▸ List.mem_cons_self _ _
      · simp only [hasSeg, Bool.or_eq_true] at h2
        rcases h2 with h2 | h2
        · exact absurd h2 (by simp [startsW])
        · exact List.mem_cons_of_mem a
            (ih (fun x hx => htags x (List.mem_cons_of_mem a hx)) h2)

/-- The `INSTR` check against the JSON text agrees with exact tag-set
membership for tags built from letters, digits and underscores. -/
theorem tagMatches_iff (tags : List String) (t : String)
    (ht : simpleTag t = true) (htags : ∀ s ∈ tags, simpleTag s = true) :
    tagMatches tags t = true ↔ t ∈ tags := by
  have htc : ∀ c ∈ t.data, simpleChar c = true := List.all_eq_true.mp ht
  have htagsc : ∀ a ∈ tags.map String.data, ∀ c ∈ a, simpleChar c = true := by
    intro a hma c hc
    obtain ⟨s, hs, rfl⟩ := List.mem_map.mp hma
    exact List.all_eq_true.mp (htags s hs) c hc
  have hrb : ']' ∉ ('"' :: t.data ++ ['"']) := by
    intro hc
    rcases List.mem_cons.mp hc with hc | hc
    · exact absurd hc (by decide)
    · rcases List.mem_append.mp hc with hc | hc
      · exact (simpleChar_spec ']' (htc ']' hc)).2.2.2.2.1 rfl
      · rw [List.mem_singleton] at hc
        exact absurd hc (by decide)
  constructor
  · intro h
    unfold tagMatches quotePat dumpTags at h
    simp only [hasSeg, Bool.or_eq_true] at h
    rcases h with h | h
    · exact absurd h (by simp [startsW])
    · rcases hasSeg_split _ ']' hrb (dumpCore (tags.map String.data)) []
          (by exact h) with h2 | h2
      · have := mem_of_hasSeg_dumpCore t.data (tags.map String.data) htc htagsc h2
        obtain ⟨s, hs, hds⟩ := List.mem_map.mp this
        exact (String.ext hds) ▸ hs
      · exact absurd h2 (by simp [hasSeg, startsW])
  · intro h
    unfold tagMatches quotePat dumpTags
    have hmem : t.data ∈ tags.map String.data := List.mem_map_of_mem String.data h
    have h1 : hasSeg ('"' :: t.data ++ ['"']) (dumpCore (tags.map String.data)) = true :=
      hasSeg_dumpCore_of_mem t.data (tags.map String.data) htc hmem
    have h2 : hasSeg ('"' :: t.data ++ ['"'])
        (dumpCore (tags.map String.data) ++ [']']) = true :=
      hasSeg_append_left _ _ _ h1
    simp only [hasSeg, Bool.or_eq_true]
    exact Or.inr h2

/-- C3: for a non-empty query of simple tags (letters/digits/underscore,
the alphabet of every tag this system generates), boolean search returns
exactly the stored items that, for every category group of the query,
carry at least one of that group's tags as an exact member of their tag
set; substring containment of one tag in another (e.g. `dark_red` for the
query tag `red`) does not count. -/
theorem search_boolean_exact_membership (q : List String) (ps : List Product) (p : Product)
    (hq : q ≠ [])
    (hsq : ∀ t ∈ q, simpleTag t = true)
    (hsp : ∀ s ∈ p.tags, simpleTag s = true)
    (hp : p ∈ ps) :
    p ∈ searchProductsByTags q ps none false ↔
      ∀ c ∈ categoriesOf q, ∃ t ∈ groupTags q c, t ∈ p.tags := by
  have hqe : q.isEmpty = false := by
    cases q with
    | nil => exact absurd rfl hq
    | cons a l => rfl
  have hmem : p ∈ searchProductsByTags q ps none false ↔
      p ∈ ps ∧ matchesQuery q p.tags = true := by
    simp only [searchProductsByTags, hqe, Bool.false_eq_true, if_false, Bool.false_and]
    exact List.mem_filter
  rw [hmem]
  simp only [hp, true_and]
  unfold matchesQuery
  rw [List.all_eq_true]
  constructor
  · intro h c hc
    have h2 := h c hc
    rw [List.any_eq_true] at h2
    obtain ⟨t, htg, htm⟩ := h2
    exact ⟨t, htg, (tagMatches_iff p.tags t (hsq t (List.mem_of_mem_filter htg)) hsp).mp htm⟩
  · intro h c hc
    rw [List.any_eq_true]
    obtain ⟨t, htg, htm⟩ := h c hc
    exact ⟨t, htg, (tagMatches_iff p.tags t (hsq t (List.mem_of_mem_filter htg)) hsp).mpr htm⟩

theorem search_boolean_exact_membership_witness :
    mkP 1 ["dark_red"] [] ∉
      searchProductsByTags ["red"] [mkP 1 ["dark_red"] [], mkP 2 ["red"] []] none false ∧
    mkP 2 ["red"] [] ∈
      searchProductsByTags ["red"] [mkP 1 ["dark_red"] [], mkP 2 ["red"] []] none false := by
  constructor
  · intro hmem
    have h := (search_boolean_exact_membership ["red"]
        [mkP 1 ["dark_red"] [], mkP 2 ["red"] []] (mkP 1 ["dark_red"] [])
        (by decide) (by decide) (by decide) (by decide)).mp hmem
    obtain ⟨t, htg, htm⟩ := h "misc" (by decide)
    have hg : groupTags ["red"] "misc" = ["red"] := by decide
    rw [hg, List.mem_singleton] at htg
    subst htg
    exact absurd htm (by decide)
  · exact (search_boolean_exact_membership ["red"]
        [mkP 1 ["dark_red"] [], mkP 2 ["red"] []] (mkP 2 ["red"] [])
        (by decide) (by decide) (by decide) (by decide)).mpr (by decide)

/-- The exclusive-type filter's `all ... && length ==` test is exactly
set equality of the two type-tag lists, when neither carries duplicates. -/
theorem exclusiveTypeKeep_iff (q : List String) (p : Product)
    (hndp : (typeTagsOf p.tags).Nodup) (hndq : (requestedTypeTags q).Nodup) :
    exclusiveTypeKeep q p = true ↔
      ∀ t, t ∈ typeTagsOf p.tags ↔ t ∈ requestedTypeTags q := by
  unfold exclusiveTypeKeep
  simp only [Bool.and_eq_true, List.all_eq_true, beq_iff_eq]
  constructor
  · rintro ⟨hall, hlen⟩
    have hsub : typeTagsOf p.tags ⊆ requestedTypeTags q :=
      fun t ht => (contains_iff _ _).mp (hall t ht)
    have hfin : (typeTagsOf p.tags).toFinset = (requestedTypeTags q).toFinset := by
      apply Finset.eq_of_subset_of_card_le
      · intro t ht
        rw [List.mem_toFinset] at ht ⊢
        exact hsub ht
      · rw [List.toFinset_card_of_nodup hndq, List.toFinset_card_of_nodup hndp, hlen]
    intro t
    rw [← List.mem_toFinset, hfin, List.mem_toFinset]
  · intro hiff
    have hfin : (typeTagsOf p.tags).toFinset = (requestedTypeTags q).toFinset := by
      ext t
      rw [List.mem_toFinset, List.mem_toFinset]
      exact hiff t
    constructor
    · exact fun t ht => (contains_iff _ _).mpr ((hiff t).mp ht)
    · have hcard := congrArg Finset.card hfin
      rwa [List.toFinset_card_of_nodup hndp, List.toFinset_card_of_nodup hndq] at hcard

/-- C5: with the exclusive-type flag set and a `type` category present in
the query, boolean search keeps a stored item iff it passes the ordinary
boolean match and its set of `type_*` tags equals the requested set of
`type_*` tags — no superset, no subset (tag sets carry no duplicates). -/
theorem exclusive_type_search_exact_set (q : List String) (ps : List Product) (p : Product)
    (hq : q ≠ [])
    (hcat : (categoriesOf q).contains "type" = true)
    (hndp : (typeTagsOf p.tags).Nodup)
    (hndq : (requestedTypeTags q).Nodup) :
    p ∈ searchProductsByTags q ps none true ↔
      (p ∈ searchProductsByTags q ps none false ∧
        ∀ t, t ∈ typeTagsOf p.tags ↔ t ∈ requestedTypeTags q) := by
  have hqe : q.isEmpty = false := by
    cases q with
    | nil => exact absurd rfl hq
    | cons a l => rfl
  have hbase : searchProductsByTags q ps none false =
      ps.filter (fun r => matchesQuery q r.tags) := by
    simp only [searchProductsByTags, hqe, Bool.false_eq_true, if_false, Bool.false_and]
  have hexcl : searchProductsByTags q ps none true =
      (ps.filter (fun r => matchesQuery q r.tags)).filter (fun r => exclusiveTypeKeep q r) := by
    simp only [searchProductsByTags, hqe, Bool.false_eq_true, if_false, Bool.true_and, hcat,
      if_true]
  rw [hexcl, hbase, List.mem_filter]
  constructor
  · rintro ⟨h1, h2⟩
    exact ⟨h1, (exclusiveTypeKeep_iff q p hndp hndq).mp h2⟩
  · rintro ⟨h1, h2⟩
    exact ⟨h1, (exclusiveTypeKeep_iff q p hndp hndq).mpr h2⟩

theorem exclusive_type_search_exact_set_witness :
    mkP 1 ["type_hoodie", "type_jacket"] [] ∉
      searchProductsByTags ["type_hoodie"]
        [mkP 1 ["type_hoodie", "type_jacket"] [], mkP 2 ["type_hoodie"] []] none true ∧
    mkP 2 ["type_hoodie"] [] ∈
      searchProductsByTags ["type_hoodie"]
        [mkP 1 ["type_hoodie", "type_jacket"] [], mkP 2 ["type_hoodie"] []] none true := by
  constructor
  · intro hmem
    have h := (exclusive_type_search_exact_set ["type_hoodie"]
        [mkP 1 ["type_hoodie", "type_jacket"] [], mkP 2 ["type_hoodie"] []]
        (mkP 1 ["type_hoodie", "type_jacket"] [])
        (by decide) (by decide) (by decide) (by decide)).mp hmem
    have h2 := (h.2 "type_jacket").mp (by decide)
    exact absurd h2 (by decide)
  · apply (exclusive_type_search_exact_set ["type_hoodie"]
        [mkP 1 ["type_hoodie", "type_jacket"] [], mkP 2 ["type_hoodie"] []]
        (mkP 2 ["type_hoodie"] [])
        (by decide) (by decide) (by decide) (by decide)).mpr
    refine ⟨by decide, ?_⟩
    intro t
    have he : typeTagsOf (mkP 2 ["type_hoodie"] []).tags =
        requestedTypeTags ["type_hoodie"] := by decide
    rw [he]

/-! ### C6: self-similarity -/

theorem calc_self_zero (c : List (String × ℚ)) (h : c ≠ []) :
    calculateColorSimilarity c c = 0 := by
  unfold calculateColorSimilarity
  have he : c.isEmpty = false := by
    cases c with
    | nil => exact absurd rfl h
    | cons a l => rfl
  simp only [he, Bool.or_self, Bool.false_eq_true, if_false]
  have hz : ((dedupFirst (c.map (fun p => p.1) ++ c.map (fun p => p.1))).map
      (fun x => |dGetD c x 0 - dGetD c x 0|)).sum = 0 := by
    apply List.sum_eq_zero
    intro x hx
    obtain ⟨y, _, rfl⟩ := List.mem_map.mp hx
    simp
  rw [hz]
  simp

theorem calc_nonneg (c1 c2 : List (String × ℚ)) : 0 ≤ calculateColorSimilarity c1 c2 := by
  unfold calculateColorSimilarity
  split
  · norm_num
  · apply div_nonneg _ (by norm_num)
    apply List.sum_nonneg
    intro x hx
    obtain ⟨y, _, rfl⟩ := List.mem_map.mp hx
    exact abs_nonneg _

/-- C6 (counterexample): two items, ids 1 and 2, both typed `type_hoodie`
and both with empty colour maps. Similarity search for item 2 includes it
in its own candidate set, yet assigns it colour distance 100 (empty maps
score maximal distance) and ranks it second: the equal-scoring item 1
precedes it under the stable sort. -/
theorem self_similarity_not_first_counterexample :
    findSimilarProductsByColor 2 50 false
        [mkP 1 ["type_hoodie"] [], mkP 2 ["type_hoodie"] []] =
      [(mkP 1 ["type_hoodie"] [], 100), (mkP 2 ["type_hoodie"] [], 100)] := by
  decide

/-- C6 (amended): for a stored reference with at least one `type_*` tag
and a non-empty colour map, similarity search scores the reference itself
0, and — since sorting is stable and ties keep table order — it ranks
first whenever every other stored item scores strictly more than 0
(otherwise an equal-scoring item occurring earlier may precede it). -/
theorem self_similarity_zero_and_first (pid limit : ℕ) (ps : List Product) (ref : Product)
    (hfind : ps.find? (fun p => p.id == pid) = some ref)
    (hcolors : ref.colors ≠ [])
    (htype : typeTagsOf ref.tags ≠ [])
    (hsimple : ∀ s ∈ ref.tags, simpleTag s = true)
    (hlim : 1 ≤ limit)
    (hothers : ∀ p ∈ ps, p ≠ ref → calculateColorSimilarity ref.colors p.colors ≠ 0) :
    (findSimilarProductsByColor pid limit false ps).head? = some (ref, 0) := by
  have htypeE : (typeTagsOf ref.tags).isEmpty = false := by
    cases hty : typeTagsOf ref.tags with
    | nil => exact absurd hty htype
    | cons a l => rfl
  have hgoal : findSimilarProductsByColor pid limit false ps =
      ((sortByLe (fun a b => decide (a.2 ≤ b.2))
        ((ps.filter (fun p => (typeTagsOf ref.tags).any (fun t => tagMatches p.tags t))).map
          (fun p => (p, calculateColorSimilarity ref.colors p.colors)))).take limit) := by
    simp only [findSimilarProductsByColor, hfind, htypeE, Bool.false_eq_true, if_false,
      Bool.false_and]
  rw [hgoal]
  set results := (ps.filter (fun p => (typeTagsOf ref.tags).any
      (fun t => tagMatches p.tags t))).map
    (fun p => (p, calculateColorSimilarity ref.colors p.colors)) with hresults
  set L := sortByLe (fun a b : Product × ℚ => decide (a.2 ≤ b.2)) results with hL
  have hperm : L.Perm results := sortByLe_perm _ _
  obtain ⟨t0, ts, hts⟩ := List.exists_cons_of_ne_nil htype
  have ht0ref : t0 ∈ ref.tags := by
    have : t0 ∈ typeTagsOf ref.tags := hts ▸ List.mem_cons_self t0 ts
    exact List.mem_of_mem_filter this
  have htOk : (typeTagsOf ref.tags).any (fun t => tagMatches ref.tags t) = true := by
    rw [List.any_eq_true]
    exact ⟨t0, hts ▸ List.mem_cons_self t0 ts,
      (tagMatches_iff ref.tags t0 (hsimple t0 ht0ref) hsimple).mpr ht0ref⟩
  have hrefmem : (ref, (0 : ℚ)) ∈ results := by
    have hrc : ref ∈ ps.filter (fun p => (typeTagsOf ref.tags).any
        (fun t => tagMatches p.tags t)) :=
      List.mem_filter.mpr ⟨List.mem_of_find?_eq_some hfind, htOk⟩
    have h2 : (ref, calculateColorSimilarity ref.colors ref.colors) ∈ results := by
      rw [hresults]
      exact List.mem_map.mpr ⟨ref, hrc, rfl⟩
    rwa [calc_self_zero ref.colors hcolors] at h2
  have hLne : L ≠ [] := by
    intro hnil
    rw [hnil] at hperm
    exact (List.not_mem_nil ((ref, (0 : ℚ)))) (hperm.mem_iff.mpr hrefmem)
  obtain ⟨x, rest, hxrest⟩ := List.exists_cons_of_ne_nil hLne
  have hsorted := sortByLe_pairwise (fun a b : Product × ℚ => decide (a.2 ≤ b.2))
    (fun a b => by
      rcases le_total a.2 b.2 with h | h
      · exact Or.inl (decide_eq_true h)
      · exact Or.inr (decide_eq_true h))
    (fun a b c h1 h2 => decide_eq_true (le_trans (of_decide_eq_true h1) (of_decide_eq_true h2)))
    results
  rw [← hL, hxrest, List.pairwise_cons] at hsorted
  have hxmem : x ∈ results := hperm.mem_iff.mp (hxrest ▸ List.mem_cons_self x rest)
  have hx0 : 0 ≤ x.2 := by
    rw [hresults] at hxmem
    obtain ⟨p, _, rfl⟩ := List.mem_map.mp hxmem
    exact calc_nonneg _ _
  have hxle : x.2 ≤ 0 := by
    have hrefL : (ref, (0 : ℚ)) ∈ L := hperm.mem_iff.mpr hrefmem
    rw [hxrest] at hrefL
    rcases List.mem_cons.mp hrefL with heq | hrest
    · rw [← heq]
    · exact of_decide_eq_true (hsorted.1 _ hrest)
  have hxz : x.2 = 0 := le_antisymm hxle hx0
  have hxref : x = (ref, (0 : ℚ)) := by
    rw [hresults] at hxmem
    obtain ⟨p, hpmem, hfp⟩ := List.mem_map.mp hxmem
    have hps : p ∈ ps := List.mem_of_mem_filter hpmem
    have hcalc : calculateColorSimilarity ref.colors p.colors = 0 := by
      have : x.2 = calculateColorSimilarity ref.colors p.colors := by rw [← hfp]
      rw [← this, hxz]
    have hpref : p = ref := by
      by_contra hne
      exact hothers p hps hne hcalc
    rw [← hfp, hpref, calc_self_zero ref.colors hcolors]
  have hlim0 : limit ≠ 0 := Nat.one_le_iff_ne_zero.mp hlim
  rw [hxrest, List.head?_take, if_neg hlim0]
  simp [hxref]

theorem self_similarity_zero_and_first_witness :
    (findSimilarProductsByColor 2 50 false
        [mkP 1 ["type_hoodie"] [("red", 60), ("blue", 40)],
         mkP 2 ["type_hoodie"] [("red", 100)]]).head? =
      some (mkP 2 ["type_hoodie"] [("red", 100)], 0) :=
  self_similarity_zero_and_first 2 50
    [mkP 1 ["type_hoodie"] [("red", 60), ("blue", 40)],
     mkP 2 ["type_hoodie"] [("red", 100)]]
    (mkP 2 ["type_hoodie"] [("red", 100)])
    (by decide) (by decide) (by decide) (by decide) (by decide)
    (by
      intro p hp hne
      rcases List.mem_cons.mp hp with rfl | hp2
      · norm_num +decide [calculateColorSimilarity, dedupFirst, dGetD, dGet?, mkP]
      · rcases List.mem_cons.mp hp2 with rfl | hp3
        · exact absurd rfl hne
        · exact absurd hp3 (List.not_mem_nil _))
